import Mathlib

/-!
Verification of the version-specifier core (`src/vocab/specifier.rs`).

The file embeds the range compiler `CompareOp::to_ranges`, the evaluators
`Specifier::satisfied_by` / `Specifiers::satisfied_by`, and the version value
type they operate on.  The `Version` struct's fields are those the compiler
manipulates (`epoch`, `release`, `pre`, `post`, `dev`, `local`); the ordering,
the `ZERO`/`INFINITY` sentinels and `next()` live in `version.rs`, which is not
part of the examined sources, so those are modelled from the specification
(sections 3 and 4.1) and marked as such below.
-/

namespace Posy

/-- Pre-release tag and number (`pep440::PreRelease`): Alpha, Beta or
ReleaseCandidate, each carrying a non-negative integer. -/
inductive PreRelease where
  | A (n : ℕ)
  | B (n : ℕ)
  | RC (n : ℕ)
deriving DecidableEq

/-- One segment of a local version: numeric or alphanumeric text. -/
inductive LocalSeg where
  | text (s : String)
  | num (n : ℕ)
deriving DecidableEq

/-- The version literal value (`pep440::Version`, wrapped by posy's `Version`
newtype).  Machine integers (`u32`) are modelled as `ℕ`; the claims only ever
add 1 to them, which cannot overflow at the values a parsed literal holds. -/
structure Version where
  epoch : ℕ
  release : List ℕ
  pre : Option PreRelease
  post : Option ℕ
  dev : Option ℕ
  «local» : List LocalSeg
deriving DecidableEq

/-- Maximum representable value of the `u32` post-release counter, used by
`StrictlyGreaterThan` as an "after every post-release" marker. -/
def U32MAX : ℕ := 4294967295

/-- Sort key of one local segment.  Modelled from the spec: §3 orders local
segments element-wise; §9 leaves the mixed text/numeric tie-break to PEP 440,
which puts every alphanumeric segment before every numeric one. -/
def LocalSeg.key : LocalSeg → List Char ⊕ₗ ℕ
  | .text s => Sum.inl s.data
  | .num n => Sum.inr n

/-- Release sequences compare element-wise with implicit trailing zero-padding
(spec §3); stripping trailing zeros turns that into a plain lexicographic
comparison of lists. -/
def stripZeros (l : List ℕ) : List ℕ :=
  (l.reverse.dropWhile (· == 0)).reverse

/-- Release-maturity rank and value (spec §3): dev-release < pre-release <
final < post-release, then the numeric value within the rank (for a
pre-release, its Alpha < Beta < ReleaseCandidate tag and then its number). -/
def rankKey (v : Version) : ℕ × ℕ × ℕ :=
  match v.dev, v.pre, v.post with
  | some d, _, _ => (0, d, 0)
  | none, some (.A n), _ => (1, 0, n)
  | none, some (.B n), _ => (1, 1, n)
  | none, some (.RC n), _ => (1, 2, n)
  | none, none, none => (2, 0, 0)
  | none, none, some p => (3, p, 0)

/-- Keys of all local segments, compared lexicographically as the final
tie-break (spec §3: present > absent, element-wise within local). -/
def localKeys (v : Version) : List (List Char ⊕ₗ ℕ) :=
  v.«local».map LocalSeg.key

/-- The lexicographic sort-key type realising the total order of spec §3. -/
abbrev VKey :=
  ℕ ×ₗ (List ℕ ×ₗ (ℕ ×ₗ (ℕ ×ₗ (ℕ ×ₗ List (List Char ⊕ₗ ℕ)))))

/-- Total order of spec §3, modelled from the spec (the comparator itself is in
`version.rs`, outside the examined sources): epoch, then zero-padded release,
then maturity rank, then the value within the rank, then local segments. -/
def Version.key (v : Version) : VKey :=
  toLex (v.epoch, toLex (stripZeros v.release,
    toLex ((rankKey v).1, toLex ((rankKey v).2.1, toLex ((rankKey v).2.2, localKeys v)))))

/-- Boolean form of the order, as `Ord::cmp`-based comparison in the code. -/
def vle (a b : Version) : Bool := decide (a.key ≤ b.key)

/-- Boolean strict order. -/
def vlt (a b : Version) : Bool := decide (a.key < b.key)

/-- The order's global minimum sentinel `Version::ZERO`.  Modelled from the
spec (§3): every field at its bottom value. -/
def Version.ZERO : Version :=
  { epoch := 0, release := [0], pre := none, post := none, dev := some 0, «local» := [] }

/-- The global maximum sentinel `Version::INFINITY`.  Modelled from the spec
(§3): a synthetic literal above every parseable literal (whose bounded fields
stay below `U32MAX`); theorems quantifying over literals assume `vlt w INFINITY`. -/
def Version.INFINITY : Version :=
  { epoch := U32MAX, release := [U32MAX], pre := none, post := some U32MAX,
    dev := none, «local» := [] }

/-- The least literal strictly greater than `v` (`Version::next`, in
`version.rs` outside the examined sources).  Modelled from the spec (§4.1):
append a synthetic minimal local marker, which sorts immediately after `v`
under the order of §3. -/
def Version.vnext (v : Version) : Version :=
  { v with «local» := v.«local» ++ [LocalSeg.text ""] }

/-- Half-open interval over the version order (`std::ops::Range<Version>`);
`stop` is Rust's `end` field. -/
structure VersionRange where
  start : Version
  stop : Version
deriving DecidableEq

/-- Rust `Range::contains`: `start <= item && item < end`. -/
def VersionRange.containsV (r : VersionRange) (v : Version) : Bool :=
  vle r.start v && vlt v r.stop

/-- The seven comparison operators. -/
inductive CompareOp where
  | LessThanEqual
  | StrictlyLessThan
  | NotEqual
  | Equal
  | GreaterThanEqual
  | StrictlyGreaterThan
  | Compatible
deriving DecidableEq

/-- A right-hand-side string after wildcard stripping and literal parsing.
Modelled from the spec (§2): the version-literal parser is an external
collaborator, so the raw string is represented by its parse outcome —
`parsed = none` models a remainder that is not a valid literal (ParseError),
and `wildcard` records whether the raw string ended in `.*`. -/
structure Rhs where
  parsed : Option Version
  wildcard : Bool
deriving DecidableEq

/-- Embedding of `parse_version_wildcard`: strip the `.*` suffix (recorded in
`Rhs.wildcard`) and parse the remainder, propagating a parse failure. -/
def parse_version_wildcard (input : Rhs) : Except String (Version × Bool) :=
  match input.parsed with
  | none => .error "invalid version"
  | some v => .ok (v, input.wildcard)

/-- Increment the last element of a list (`*release.last_mut().unwrap() += 1`).
A parsed literal always has a nonempty release, so the empty case — a panic in
the source — is never reached on the inputs the claims quantify over. -/
def incLast : List ℕ → List ℕ
  | [] => []
  | [x] => [x + 1]
  | x :: rest => x :: incLast rest

/-- Increment a pre-release number, preserving its tag. -/
def PreRelease.bump : PreRelease → PreRelease
  | .RC n => .RC (n + 1)
  | .A n => .A (n + 1)
  | .B n => .B (n + 1)

/-- Embedding of `CompareOp::to_ranges`: converts a comparison into a union of
half-open ranges, or fails. -/
def CompareOp.to_ranges (op : CompareOp) (rhs : Rhs) : Except String (List VersionRange) := do
  let (version, wildcard) ← parse_version_wildcard rhs
  if wildcard then
    if version.dev.isSome || !version.«local».isEmpty then
      throw "version wildcards cannot have dev or local suffixes"
    else
      let low : Version := { version with dev := some 0 }
      let high : Version :=
        match version.post with
        | some post => { version with post := some (post + 1) }
        | none =>
          match version.pre with
          | some pre => { version with pre := some pre.bump }
          | none => { version with release := incLast version.release }
      let high : Version := { high with dev := some 0 }
      match op with
      | .Equal => pure [⟨low, high⟩]
      | .NotEqual => pure [⟨Version.ZERO, low⟩, ⟨high, Version.INFINITY⟩]
      | _ => throw "cannot use wildcard with this operator"
  else
    if (op ≠ .Equal ∧ op ≠ .NotEqual) ∧ version.«local» ≠ [] then
      throw "operator cannot be used on a version with a +local suffix"
    else
      match op with
      | .LessThanEqual => pure [⟨Version.ZERO, version.vnext⟩]
      | .GreaterThanEqual => pure [⟨version, Version.INFINITY⟩]
      | .Equal => pure [⟨version, version.vnext⟩]
      | .NotEqual => pure [⟨Version.ZERO, version⟩, ⟨version.vnext, Version.INFINITY⟩]
      | .StrictlyGreaterThan =>
        let low : Version :=
          match version.dev with
          | some dev => { version with dev := some (dev + 1) }
          | none =>
            match version.post with
            | some post => { version with post := some (post + 1) }
            | none => { version with post := some U32MAX }
        pure [⟨low, Version.INFINITY⟩]
      | .StrictlyLessThan =>
        if version.pre = none ∧ version.dev = none then
          pure [⟨Version.ZERO, { version with dev := some 0, post := none, «local» := [] }⟩]
        else
          pure [⟨Version.ZERO, version⟩]
      | .Compatible =>
        if version.release.length < 2 then
          throw "~= operator requires a version with two segments (X.Y)"
        else
          pure [⟨version,
            { epoch := version.epoch, release := incLast version.release.dropLast,
              pre := none, post := none, dev := some 0, «local» := [] }⟩]

/-- Equality of fallible results is decidable; needed to evaluate the
evaluators on concrete inputs. -/
instance {ε α : Type _} [DecidableEq ε] [DecidableEq α] : DecidableEq (Except ε α) := fun a b =>
  match a, b with
  | .error e, .error f =>
    if h : e = f then .isTrue (h ▸ rfl) else .isFalse (fun c => h (Except.error.inj c))
  | .ok x, .ok y =>
    if h : x = y then .isTrue (h ▸ rfl) else .isFalse (fun c => h (Except.ok.inj c))
  | .error _, .ok _ => .isFalse (fun c => Except.noConfusion c)
  | .ok _, .error _ => .isFalse (fun c => Except.noConfusion c)

/-- An operator plus the (unparsed) right-hand-side value. -/
structure Specifier where
  op : CompareOp
  value : Rhs
deriving DecidableEq

/-- Embedding of `Specifier::satisfied_by`: compile to ranges, then test
membership in any of them. -/
def Specifier.satisfied_by (s : Specifier) (version : Version) : Except String Bool := do
  let ranges ← s.op.to_ranges s.value
  pure (ranges.any (fun r => r.containsV version))

/-- An ordered collection of specifiers (the `Specifiers(pub Vec<Specifier>)`
newtype). -/
structure Specifiers where
  specs : List Specifier

/-- The source's for-loop with early return: propagate the first failure,
return false at the first unsatisfied specifier, true past the end. -/
def satisfiedByList (l : List Specifier) (version : Version) : Except String Bool :=
  match l with
  | [] => pure true
  | s :: rest => do
    let b ← s.satisfied_by version
    if !b then pure false else satisfiedByList rest version

/-- Embedding of `Specifiers::satisfied_by`. -/
def Specifiers.satisfied_by (ss : Specifiers) (version : Version) : Except String Bool :=
  satisfiedByList ss.specs version

end Posy

/-! ### Order lemmas for the modelled version order -/

namespace Posy

/-- Lexicographic step: a pair starting with `0` is below a pair whose tail
dominates when the heads agree. -/
theorem le_lex_nat {β : Type} [LE β] {x y : β} (e : ℕ) (h : e = 0 → x ≤ y) :
    (toLex (0, x) : ℕ ×ₗ β) ≤ toLex (e, y) := by
  rcases Nat.eq_zero_or_pos e with rfl | he
  · exact (Prod.Lex.le_iff _ _).mpr (Or.inr ⟨rfl, h rfl⟩)
  · exact (Prod.Lex.le_iff _ _).mpr (Or.inl he)

/-- Lexicographic step for a list-valued first component: the empty list is the
bottom of the lexicographic list order. -/
theorem le_lex_list {β : Type} [LE β] {x y : β} (l : List ℕ) (h : l = [] → x ≤ y) :
    (toLex (([] : List ℕ), x) : List ℕ ×ₗ β) ≤ toLex (l, y) := by
  cases l with
  | nil => exact (Prod.Lex.le_iff _ _).mpr (Or.inr ⟨rfl, h rfl⟩)
  | cons a t => exact (Prod.Lex.le_iff _ _).mpr (Or.inl (List.nil_lt_cons a t))

/-- Lexicographic strictness in the second component. -/
theorem lt_lex_right {α β : Type} [LT α] [LT β] (a : α) {x y : β} (h : x < y) :
    (toLex (a, x) : α ×ₗ β) < toLex (a, y) := by
  exact (Prod.Lex.lt_iff _ _).mpr (Or.inr ⟨rfl, h⟩)

/-- A list lexicographically precedes any proper extension of itself. -/
theorem lex_append_single {α : Type} [LT α] (l : List α) (x : α) :
    List.Lex (· < ·) l (l ++ [x]) := by
  induction l with
  | nil => exact List.Lex.nil
  | cons a t ih => exact List.Lex.cons ih

/-- The `ZERO` sentinel is a global minimum of the modelled order (spec §3). -/
theorem zero_le_key (w : Version) : Version.ZERO.key ≤ w.key := by
  show (toLex (0, toLex (([] : List ℕ), toLex (0, toLex (0, toLex (0,
    ([] : List (List Char ⊕ₗ ℕ))))))) : VKey) ≤ _
  apply le_lex_nat; intro _
  apply le_lex_list; intro _
  apply le_lex_nat; intro _
  apply le_lex_nat; intro _
  apply le_lex_nat; intro _
  exact List.nil_le

/-- The modelled `next` is strictly above its argument (spec §4.1). -/
theorem key_lt_vnext (v : Version) : v.key < v.vnext.key := by
  have hloc : localKeys v.vnext = localKeys v ++ ([Sum.inl []] : List (List Char ⊕ₗ ℕ)) := by
    simp [localKeys, Version.vnext, LocalSeg.key]
  have hrk : rankKey v.vnext = rankKey v := rfl
  have hrel : stripZeros v.vnext.release = stripZeros v.release := rfl
  have hep : v.vnext.epoch = v.epoch := rfl
  unfold Version.key
  rw [hloc, hrk, hrel, hep]
  apply lt_lex_right; apply lt_lex_right; apply lt_lex_right; apply lt_lex_right
  apply lt_lex_right
  show List.Lex (· < ·) (localKeys v) (localKeys v ++ ([Sum.inl []] : List (List Char ⊕ₗ ℕ)))
  exact lex_append_single _ _

end Posy

/-! ### Claims -/

namespace Posy

/-- C1: for every wildcard right-hand side whose remainder parses as a version
literal with no dev-release and empty local segment, `Equal.to_ranges` returns
exactly the single range `[low, high)` and `NotEqual.to_ranges` exactly the two
ranges `[ZERO, low)` and `[high, INFINITY)`, where `low` is the literal with
dev forced to 0 (everything else unchanged) and `high` is the literal with its
last meaningful maturity segment incremented (post+1 if it has a post-release;
else the pre-release number incremented preserving its tag; else the last
release element incremented) and then dev forced to 0. -/
theorem C1_wildcard_equal_notequal_ranges (v low high : Version)
    (hrel : v.release ≠ []) (hdev : v.dev = none) (hloc : v.«local» = [])
    (hlow : low = { v with dev := some 0 })
    (hhigh : high =
      { (match v.post, v.pre with
         | some p, _ => { v with post := some (p + 1) }
         | none, some pr => { v with pre := some pr.bump }
         | none, none => { v with release := incLast v.release }) with dev := some 0 }) :
    CompareOp.to_ranges .Equal ⟨some v, true⟩ = .ok [⟨low, high⟩] ∧
    CompareOp.to_ranges .NotEqual ⟨some v, true⟩ =
      .ok [⟨Version.ZERO, low⟩, ⟨high, Version.INFINITY⟩] := by
  subst hlow hhigh
  rcases hp : v.post with _ | p <;> rcases hq : v.pre with _ | q <;>
    simp [CompareOp.to_ranges, parse_version_wildcard, bind, Except.bind,
      pure, Except.pure, hdev, hloc, hp, hq]

/-- Witness for C1 at the literal `1.2` (wildcard `1.2.*`). -/
theorem C1_witness :
    (([1, 2] : List ℕ) ≠ []) ∧
    (CompareOp.to_ranges .Equal ⟨some ⟨0, [1, 2], none, none, none, []⟩, true⟩ =
        .ok [⟨⟨0, [1, 2], none, none, some 0, []⟩, ⟨0, [1, 3], none, none, some 0, []⟩⟩] ∧
      CompareOp.to_ranges .NotEqual ⟨some ⟨0, [1, 2], none, none, none, []⟩, true⟩ =
        .ok [⟨Version.ZERO, ⟨0, [1, 2], none, none, some 0, []⟩⟩,
             ⟨⟨0, [1, 3], none, none, some 0, []⟩, Version.INFINITY⟩]) :=
  ⟨by decide,
   C1_wildcard_equal_notequal_ranges ⟨0, [1, 2], none, none, none, []⟩
     ⟨0, [1, 2], none, none, some 0, []⟩ ⟨0, [1, 3], none, none, some 0, []⟩
     (by decide) rfl rfl rfl rfl⟩

/-- C3: `Specifiers.satisfied_by` returns `Ok true` exactly when every
contained specifier is individually satisfied (logical AND, evaluated in order
with short-circuit and error propagation — the definition of
`satisfiedByList`). -/
theorem C3_conjunction (l : List Specifier) (v : Version) :
    Specifiers.satisfied_by ⟨l⟩ v = .ok true ↔
      ∀ s ∈ l, s.satisfied_by v = .ok true := by
  show satisfiedByList l v = .ok true ↔ _
  induction l with
  | nil => simp [satisfiedByList, pure, Except.pure]
  | cons s rest ih =>
    cases hs : s.satisfied_by v with
    | error e => simp [satisfiedByList, hs, bind, Except.bind]
    | ok b =>
      cases b
      · simp [satisfiedByList, hs, bind, Except.bind, pure, Except.pure]
      · simp [satisfiedByList, hs, bind, Except.bind, ih]

/-- C10: the empty specifier collection is satisfied by every version and can
never fail. -/
theorem C10_empty_specifiers (v : Version) :
    Specifiers.satisfied_by ⟨[]⟩ v = .ok true := rfl

end Posy

namespace Posy

/-- C2: for every non-wildcard literal `v` and every literal `w` (every version
below the `INFINITY` sentinel), `w` lies in the single `Equal` range
`[v, next v)` exactly when it lies in neither `NotEqual` range `[ZERO, v)`,
`[next v, INFINITY)`: the two compiled range sets partition the version order. -/
theorem C2_equal_notequal_partition (v w : Version)
    (hw : vlt w Version.INFINITY = true) :
    CompareOp.to_ranges .Equal ⟨some v, false⟩ = .ok [⟨v, v.vnext⟩] ∧
    CompareOp.to_ranges .NotEqual ⟨some v, false⟩ =
      .ok [⟨Version.ZERO, v⟩, ⟨v.vnext, Version.INFINITY⟩] ∧
    (([VersionRange.mk v v.vnext].any (fun r => r.containsV w)) = true ↔
      ([VersionRange.mk Version.ZERO v,
        VersionRange.mk v.vnext Version.INFINITY].any (fun r => r.containsV w)) = false) := by
  refine ⟨rfl, rfl, ?_⟩
  have h0 : Version.ZERO.key ≤ w.key := zero_le_key w
  have hn : v.key < v.vnext.key := key_lt_vnext v
  have hi : w.key < Version.INFINITY.key := of_decide_eq_true hw
  simp only [List.any_cons, List.any_nil, Bool.or_false, VersionRange.containsV, vle, vlt,
    Bool.and_eq_true, decide_eq_true_eq, Bool.or_eq_false_iff, Bool.and_eq_false_iff,
    decide_eq_false_iff_not, not_le, not_lt]
  constructor
  · rintro ⟨hvw, hwn⟩
    exact ⟨Or.inr hvw, Or.inl hwn⟩
  · rintro ⟨h1, h2⟩
    refine ⟨?_, ?_⟩
    · rcases h1 with h1 | h1
      · exact absurd (lt_of_le_of_lt h0 h1) (lt_irrefl _)
      · exact h1
    · rcases h2 with h2 | h2
      · exact h2
      · exact absurd (lt_of_le_of_lt h2 hi) (lt_irrefl _)

/-- Witness for C2 at `v = 1.2`, `w = 1.2.5` (a literal strictly below the
`INFINITY` sentinel). -/
theorem C2_witness :
    (vlt ⟨0, [1, 2, 5], none, none, none, []⟩ Version.INFINITY = true) ∧
    (([VersionRange.mk ⟨0, [1, 2], none, none, none, []⟩
        (Version.vnext ⟨0, [1, 2], none, none, none, []⟩)].any
          (fun r => r.containsV ⟨0, [1, 2, 5], none, none, none, []⟩)) = true ↔
      ([VersionRange.mk Version.ZERO ⟨0, [1, 2], none, none, none, []⟩,
        VersionRange.mk (Version.vnext ⟨0, [1, 2], none, none, none, []⟩)
          Version.INFINITY].any
          (fun r => r.containsV ⟨0, [1, 2, 5], none, none, none, []⟩)) = false) :=
  ⟨by decide,
   (C2_equal_notequal_partition ⟨0, [1, 2], none, none, none, []⟩
     ⟨0, [1, 2, 5], none, none, none, []⟩ (by decide)).2.2⟩

end Posy

namespace Posy

/-- When every specifier in the list evaluates without error, the loop computes
the conjunction of the individual results. -/
theorem satisfiedByList_all_ok (l : List Specifier) (v : Version)
    (hok : ∀ s ∈ l, ∃ b, s.satisfied_by v = .ok b) :
    satisfiedByList l v =
      .ok (l.all (fun s => decide (s.satisfied_by v = .ok true))) := by
  induction l with
  | nil => rfl
  | cons s rest ih =>
    obtain ⟨b, hb⟩ := hok s (List.mem_cons_self s rest)
    have ih' := ih (fun s' hs' => hok s' (List.mem_cons_of_mem _ hs'))
    cases b
    · simp [satisfiedByList, hb, bind, Except.bind, pure, Except.pure, List.all_cons]
    · simp [satisfiedByList, hb, bind, Except.bind, List.all_cons, ih']

/-- A permutation leaves `List.all` unchanged. -/
theorem perm_all_eq {α : Type} (f : α → Bool) {l l' : List α} (h : l.Perm l') :
    l.all f = l'.all f := by
  induction h with
  | nil => rfl
  | cons x _ ih => simp [List.all_cons, ih]
  | swap x y t => simp [List.all_cons, ← Bool.and_assoc, Bool.and_comm]
  | trans _ _ ih1 ih2 => exact ih1.trans ih2

/-- C4 counterexample: with a failing specifier (`~=` on the one-segment
literal `1`) ahead of an unsatisfied one (`== 2` tested against `1`), the
original order propagates the error while the swapped order short-circuits to
`Ok false` — the permuted collection does not return the same result. -/
theorem C4_counterexample :
    Specifiers.satisfied_by
        ⟨[⟨.Compatible, ⟨some ⟨0, [1], none, none, none, []⟩, false⟩⟩,
          ⟨.Equal, ⟨some ⟨0, [2], none, none, none, []⟩, false⟩⟩]⟩
        ⟨0, [1], none, none, none, []⟩ ≠
      Specifiers.satisfied_by
        ⟨[⟨.Equal, ⟨some ⟨0, [2], none, none, none, []⟩, false⟩⟩,
          ⟨.Compatible, ⟨some ⟨0, [1], none, none, none, []⟩, false⟩⟩]⟩
        ⟨0, [1], none, none, none, []⟩ := by decide

/-- C4 (amended): for collections in which every specifier evaluates without
error on `v`, every permutation of the collection yields the same
`satisfied_by` result; when a specifier errors, short-circuiting can return
`Ok false` before reaching it, so reordering can exchange an error for a
result. -/
theorem C4_permutation_invariant (l l' : List Specifier) (v : Version)
    (hperm : l.Perm l')
    (hok : ∀ s ∈ l, ∃ b, s.satisfied_by v = .ok b) :
    Specifiers.satisfied_by ⟨l⟩ v = Specifiers.satisfied_by ⟨l'⟩ v := by
  have hok' : ∀ s ∈ l', ∃ b, s.satisfied_by v = .ok b :=
    fun s hs => hok s (hperm.mem_iff.mpr hs)
  show satisfiedByList l v = satisfiedByList l' v
  rw [satisfiedByList_all_ok l v hok, satisfiedByList_all_ok l' v hok',
    perm_all_eq _ hperm]

/-- Witness for the amended C4: two error-free specifiers (`>= 1` and `== 2`)
in both orders, tested against `1.5`. -/
theorem C4_witness :
    ([⟨.GreaterThanEqual, ⟨some ⟨0, [1], none, none, none, []⟩, false⟩⟩,
      ⟨.Equal, ⟨some ⟨0, [2], none, none, none, []⟩, false⟩⟩] : List Specifier).Perm
      [⟨.Equal, ⟨some ⟨0, [2], none, none, none, []⟩, false⟩⟩,
       ⟨.GreaterThanEqual, ⟨some ⟨0, [1], none, none, none, []⟩, false⟩⟩] ∧
    (∀ s ∈ ([⟨.GreaterThanEqual, ⟨some ⟨0, [1], none, none, none, []⟩, false⟩⟩,
             ⟨.Equal, ⟨some ⟨0, [2], none, none, none, []⟩, false⟩⟩] : List Specifier),
       ∃ b, s.satisfied_by ⟨0, [1, 5], none, none, none, []⟩ = .ok b) ∧
    Specifiers.satisfied_by
        ⟨[⟨.GreaterThanEqual, ⟨some ⟨0, [1], none, none, none, []⟩, false⟩⟩,
          ⟨.Equal, ⟨some ⟨0, [2], none, none, none, []⟩, false⟩⟩]⟩
        ⟨0, [1, 5], none, none, none, []⟩ =
      Specifiers.satisfied_by
        ⟨[⟨.Equal, ⟨some ⟨0, [2], none, none, none, []⟩, false⟩⟩,
          ⟨.GreaterThanEqual, ⟨some ⟨0, [1], none, none, none, []⟩, false⟩⟩]⟩
        ⟨0, [1, 5], none, none, none, []⟩ :=
  ⟨List.Perm.swap _ _ _,
   by decide,
   C4_permutation_invariant _ _ _ (List.Perm.swap _ _ _) (by decide)⟩

end Posy

namespace Posy

/-- C5: for a non-wildcard literal with empty local segment,
`StrictlyLessThan.to_ranges` yields the single range `[ZERO, bound)` where
`bound` clears post and local and forces dev to 0 when the literal has neither
pre- nor dev-release, and is the literal unchanged otherwise. -/
theorem C5_strictly_less_than (v : Version) (hloc : v.«local» = []) :
    CompareOp.to_ranges .StrictlyLessThan ⟨some v, false⟩ =
      .ok [⟨Version.ZERO,
            if v.pre = none ∧ v.dev = none
            then { v with dev := some 0, post := none, «local» := [] }
            else v⟩] := by
  by_cases h : v.pre = none ∧ v.dev = none <;>
    simp [CompareOp.to_ranges, parse_version_wildcard, bind, Except.bind,
      pure, Except.pure, hloc, h]

/-- Witness for C5 at the final release `1.2.post3+` (empty local). -/
theorem C5_witness :
    ((⟨0, [1, 2], none, some 3, none, []⟩ : Version).«local» = []) ∧
    CompareOp.to_ranges .StrictlyLessThan ⟨some ⟨0, [1, 2], none, some 3, none, []⟩, false⟩ =
      .ok [⟨Version.ZERO, ⟨0, [1, 2], none, none, some 0, []⟩⟩] :=
  ⟨rfl, by
    have h := C5_strictly_less_than ⟨0, [1, 2], none, some 3, none, []⟩ rfl
    simpa using h⟩

/-- C6: for a non-wildcard literal with empty local segment,
`StrictlyGreaterThan.to_ranges` yields the single range `[low, INFINITY)` with
`low` the literal with dev incremented if it has a dev-release, else post
incremented if it has a post-release, else post set to the maximum
representable value. -/
theorem C6_strictly_greater_than (v : Version) (hloc : v.«local» = []) :
    CompareOp.to_ranges .StrictlyGreaterThan ⟨some v, false⟩ =
      .ok [⟨(match v.dev, v.post with
             | some d, _ => { v with dev := some (d + 1) }
             | none, some p => { v with post := some (p + 1) }
             | none, none => { v with post := some U32MAX }), Version.INFINITY⟩] := by
  rcases hd : v.dev with _ | d <;> rcases hp : v.post with _ | p <;>
    simp [CompareOp.to_ranges, parse_version_wildcard, bind, Except.bind,
      pure, Except.pure, hloc, hd, hp]

/-- Witness for C6 at the dev-release `1.2.dev4`. -/
theorem C6_witness :
    ((⟨0, [1, 2], none, none, some 4, []⟩ : Version).«local» = []) ∧
    CompareOp.to_ranges .StrictlyGreaterThan ⟨some ⟨0, [1, 2], none, none, some 4, []⟩, false⟩ =
      .ok [⟨⟨0, [1, 2], none, none, some 5, []⟩, Version.INFINITY⟩] :=
  ⟨rfl, by
    have h := C6_strictly_greater_than ⟨0, [1, 2], none, none, some 4, []⟩ rfl
    simpa using h⟩

end Posy

namespace Posy

/-- C7 counterexample: the claim quantifies over every non-wildcard literal,
but on the two-segment literal `1.2+x` (non-empty local) `Compatible.to_ranges`
fails with the local-suffix error instead of returning the single range the
claim promises for releases with at least two segments. -/
theorem C7_counterexample :
    2 ≤ (Version.mk 0 [1, 2] none none none [LocalSeg.text "x"]).release.length ∧
    CompareOp.to_ranges .Compatible
        ⟨some ⟨0, [1, 2], none, none, none, [LocalSeg.text "x"]⟩, false⟩ =
      .error "operator cannot be used on a version with a +local suffix" :=
  ⟨by decide, by decide⟩

/-- C7 (amended): for every non-wildcard version literal with empty local
segment, `Compatible.to_ranges` fails if the release has fewer than two
segments, and otherwise returns the single range `[v, high)` with `high`
clearing pre/post/local, forcing dev to 0, dropping the last release element
and incrementing the new last element. -/
theorem C7_compatible (v : Version) (hloc : v.«local» = []) :
    CompareOp.to_ranges .Compatible ⟨some v, false⟩ =
      if v.release.length < 2 then
        .error "~= operator requires a version with two segments (X.Y)"
      else
        .ok [⟨v, { epoch := v.epoch, release := incLast v.release.dropLast,
                   pre := none, post := none, dev := some 0, «local» := [] }⟩] := by
  by_cases h : v.release.length < 2 <;>
    simp [CompareOp.to_ranges, parse_version_wildcard, bind, Except.bind,
      pure, Except.pure, throw, throwThe, MonadExceptOf.throw, hloc, h]

/-- Witness for the amended C7 at the literal `2.2.1` (release `[2,2,1]`
becomes `[2,3]`). -/
theorem C7_witness :
    ((⟨0, [2, 2, 1], none, none, none, []⟩ : Version).«local» = []) ∧
    CompareOp.to_ranges .Compatible ⟨some ⟨0, [2, 2, 1], none, none, none, []⟩, false⟩ =
      .ok [⟨⟨0, [2, 2, 1], none, none, none, []⟩, ⟨0, [2, 3], none, none, some 0, []⟩⟩] :=
  ⟨rfl, by
    have h := C7_compatible ⟨0, [2, 2, 1], none, none, none, []⟩ rfl
    simpa using h⟩

/-- C8: a wildcard right-hand side (remainder a literal with no dev or local
suffix) is rejected with an error by every operator other than `Equal` and
`NotEqual`. -/
theorem C8_wildcard_needs_equality (op : CompareOp) (v : Version)
    (hop : op ≠ .Equal ∧ op ≠ .NotEqual)
    (hdev : v.dev = none) (hloc : v.«local» = []) :
    CompareOp.to_ranges op ⟨some v, true⟩ =
      .error "cannot use wildcard with this operator" := by
  cases op <;>
    simp_all [CompareOp.to_ranges, parse_version_wildcard, bind, Except.bind,
      throw, throwThe, MonadExceptOf.throw]

/-- Witness for C8: `>` with the wildcard `1.2.*`. -/
theorem C8_witness :
    ((CompareOp.StrictlyGreaterThan ≠ CompareOp.Equal ∧
      CompareOp.StrictlyGreaterThan ≠ CompareOp.NotEqual)) ∧
    CompareOp.to_ranges .StrictlyGreaterThan ⟨some ⟨0, [1, 2], none, none, none, []⟩, true⟩ =
      .error "cannot use wildcard with this operator" :=
  ⟨by decide,
   C8_wildcard_needs_equality .StrictlyGreaterThan ⟨0, [1, 2], none, none, none, []⟩
     (by decide) rfl rfl⟩

/-- C9: a non-wildcard literal carrying a non-empty local segment is rejected
with an error by every operator other than `Equal` and `NotEqual`, while
`Equal` and `NotEqual` still produce a range set for it. -/
theorem C9_local_needs_equality (op : CompareOp) (v : Version)
    (hloc : v.«local» ≠ []) :
    ((op ≠ .Equal ∧ op ≠ .NotEqual) →
      CompareOp.to_ranges op ⟨some v, false⟩ =
        .error "operator cannot be used on a version with a +local suffix") ∧
    ((op = .Equal ∨ op = .NotEqual) →
      ∃ rs, CompareOp.to_ranges op ⟨some v, false⟩ = .ok rs) := by
  cases op <;> refine ⟨fun h => ?_, fun h => ?_⟩ <;>
    simp_all [CompareOp.to_ranges, parse_version_wildcard, bind, Except.bind,
      pure, Except.pure, throw, throwThe, MonadExceptOf.throw]

/-- Witness for C9: `<=` rejects the local-carrying literal `1.0+x`, `==`
accepts it. -/
theorem C9_witness :
    ((⟨0, [1, 0], none, none, none, [LocalSeg.text "x"]⟩ : Version).«local» ≠ []) ∧
    CompareOp.to_ranges .LessThanEqual
        ⟨some ⟨0, [1, 0], none, none, none, [LocalSeg.text "x"]⟩, false⟩ =
      .error "operator cannot be used on a version with a +local suffix" ∧
    (∃ rs, CompareOp.to_ranges .Equal
        ⟨some ⟨0, [1, 0], none, none, none, [LocalSeg.text "x"]⟩, false⟩ = .ok rs) :=
  ⟨by decide,
   (C9_local_needs_equality .LessThanEqual ⟨0, [1, 0], none, none, none, [LocalSeg.text "x"]⟩
     (by decide)).1 (by decide),
   (C9_local_needs_equality .Equal ⟨0, [1, 0], none, none, none, [LocalSeg.text "x"]⟩
     (by decide)).2 (Or.inl rfl)⟩

end Posy
